import Mathlib

/-!
Verification development for the cache simulator of this repository
(`riscv/cachesim_addr.cc` and `riscv/cachesim.cc`).

The C++ sources are shallowly embedded. Machine integers are modelled as
`Nat` with explicit truncation: `uint32_t` values are reduced `% 2^32`
exactly where the C++ performs a narrowing store or 32-bit arithmetic,
and `uint64_t` values `% 2^64`. `std::vector` indexing is modelled with
an `Option`-returning lookup; an access to an index outside the vector
(undefined behaviour in C++) surfaces as an `oob` error.

Contents, in order: definitions — list access helpers; the decomposed
address `cache_sim_addr_t`; the engine `cache_sim_t` with `access` and
`clean_invalidate` over a chain of engines (the eviction policy and the
performance counter are external collaborators, modelled respectively by
the three-call interface the engine uses and by an emitted event trace
tagged with the chain depth); construction-time validation; the tag
uniqueness invariant; concrete engines for evaluations — followed by the
theorems.
-/
/-! List access helpers.  `getIdx l i` models `l[i]` reads (`none` when the
index is outside the vector), `setIdx` models an in-place element write. -/

/-! The decomposed cache address, `cache_sim_addr_t` from
`riscv/cachesim_addr.cc`.  The `tag` and `idx` fields are 32-bit in the
source (the decomposing constructor narrows through `uint32_t stripped`);
arithmetic on them below truncates `% U32` accordingly. -/

/-! The cache engine, `cache_sim_t` from `riscv/cachesim.cc`.

The eviction policy is an external collaborator (the concrete policy
classes live outside the embedded sources); it is modelled abstractly by
the three-call interface the engine uses: `next`, `insert`, `update`, over
an arbitrary bookkeeping state `σ`.  The performance counter, likewise an
external collaborator, is modelled as an emitted event trace; each event
is tagged with the chain depth of the engine that emitted it (level 0 is
the engine the caller invoked, its `miss_handler` is level 1, and so on).
A chain of engines is a list of states; the empty tail plays the role of a
null `miss_handler`. -/

/-! Construction-time validation, from `cache_sim_t::init`,
`cache_sim_t::policy_is_valid` and `cache_sim_t::create_eviction_policy`. -/

/-! Helper lemmas about the linear lookup `find_way` and the per-set
uniqueness invariant `rowInv`. -/

/-! Concrete engines used by the counterexample and witness evaluations. -/

/-- Truncation modulus of a `uint32_t` value. -/
def U32 : Nat := 2 ^ 32

/-- Truncation modulus of a `uint64_t` value. -/
def U64 : Nat := 2 ^ 64

/-- Kernel-computable floor base-2 logarithm (structural fuel recursion).
It models the `(uint32_t)std::log2(x)` casts of the source, which are exact
on the power-of-two arguments guaranteed by the geometry invariants. -/
def log2fuel : Nat → Nat → Nat
  | 0, _ => 0
  | f + 1, n => if 2 ≤ n then log2fuel f (n / 2) + 1 else 0

/-- Floor base-2 logarithm used by the embedding (`ilog2 n = Nat.log2 n`). -/
def ilog2 (n : Nat) : Nat := log2fuel n n

/-- Read element `i` of a list, `none` when out of range. -/
def getIdx {α : Type _} : List α → Nat → Option α
  | [], _ => none
  | x :: _, 0 => some x
  | _ :: l, n + 1 => getIdx l n

/-- Write element `i` of a list (no-op when out of range). -/
def setIdx {α : Type _} : List α → Nat → α → List α
  | [], _, _ => []
  | _ :: l, 0, y => y :: l
  | x :: l, n + 1, y => x :: setIdx l n y

structure cache_sim_addr_t where
  valid : Bool
  dirty : Bool
  tag : Nat
  idx : Nat
deriving DecidableEq

/-- The default constructor `cache_sim_addr_t()`: all fields zero/false. -/
def emptyAddr : cache_sim_addr_t := ⟨false, false, 0, 0⟩

/-- The decomposing constructor
`cache_sim_addr_t(const uint64_t& addr, const uint32_t& sets, const uint32_t& linesz)`:
`stripped = (uint32_t)(addr >> log2(linesz))`, `idx = stripped & (sets-1)`,
`tag = stripped >> log2(sets)`, starting valid and clean. -/
def decompose (addr sets linesz : Nat) : cache_sim_addr_t :=
  let stripped := ((addr % U64) >>> ilog2 linesz) % U32
  { valid := true
    dirty := false
    tag := stripped >>> ilog2 sets
    idx := stripped &&& (sets - 1) }

/-- The member `to_uint64(sets, linesz)`: rebuild
`((tag << log2(sets)) | idx) << log2(linesz)`; the first shift is 32-bit
arithmetic (the fields are `uint32_t`), the final shift is performed on the
`uint64_t` accumulator. -/
def cache_sim_addr_t.to_uint64 (a : cache_sim_addr_t) (sets linesz : Nat) : Nat :=
  let x := (a.tag <<< ilog2 sets) % U32
  let y := x ||| a.idx
  (y <<< ilog2 linesz) % U64

/-- The member `next_cacheline(sets)`: `if (idx == sets-1) tag++; idx++;`.
Note the source increments `idx` unconditionally and never resets it to 0. -/
def cache_sim_addr_t.next_cacheline (a : cache_sim_addr_t) (sets : Nat) : cache_sim_addr_t :=
  let a' := if a.idx == sets - 1 then { a with tag := (a.tag + 1) % U32 } else a
  { a' with idx := (a'.idx + 1) % U32 }

/-- The member `operator==`: `(valid & other.valid) & (tag == other.tag)`. -/
def cache_sim_addr_t.eqb (a other : cache_sim_addr_t) : Bool :=
  (a.valid && other.valid) && (a.tag == other.tag)

/-- The member `operator<`:
`(valid & other.valid) & ((tag < other.tag) | ((tag == other.tag) & (idx < other.idx)))`. -/
def cache_sim_addr_t.ltb (a other : cache_sim_addr_t) : Bool :=
  (a.valid && other.valid) &&
    ((decide (a.tag < other.tag)) || ((a.tag == other.tag) && decide (a.idx < other.idx)))

/-- The eviction-policy interface consumed by `cache_sim_t`
(`policy->next`, `policy->insert`, `policy->update`). -/
structure EvictionPolicy (σ : Type) where
  next : σ → Nat → Nat × σ
  insert : σ → Nat → Nat → σ
  update : σ → cache_sim_addr_t → Nat → σ

/-- Events delivered to the performance counter:
`perf_counter.access / miss / writeback / clean`. -/
inductive Event where
  | access (store : Bool) (bytes : Nat)
  | miss (store : Bool)
  | writeback
  | clean
deriving DecidableEq

/-- Failure of a run of the model: `oob` marks a vector access outside its
bounds (undefined behaviour in the C++), `fuel` marks exhaustion of the
structural recursion bound. -/
inductive CErr where
  | oob
  | fuel
deriving DecidableEq

/-- State of one `cache_sim_t`: the geometry, the tag array
(`sets` rows of `ways` line entries) and the eviction-policy bookkeeping. -/
structure cache_sim_t (σ : Type) where
  sets : Nat
  ways : Nat
  linesz : Nat
  tags : List (List cache_sim_addr_t)
  pol : σ
deriving DecidableEq

/-- The linear scan of `check_tag`: `std::find(begin, end, addr)` over one
set, comparing with `operator==`; `some w` is the match distance, `none`
is the `-1` miss result. -/
def find_way (a : cache_sim_addr_t) : List cache_sim_addr_t → Option Nat
  | [] => none
  | e :: rest => if cache_sim_addr_t.eqb e a then some 0 else (find_way a rest).map (· + 1)

/-- The member `access(raw_addr, bytes, store)` on a chain of engines,
by structural recursion on the fuel (the chain depth).  The head of the
list is the engine being called; the tail is its `miss_handler` chain. -/
def accessAux {σ : Type} (P : EvictionPolicy σ) :
    Nat → Nat → List (cache_sim_t σ) → Nat → Nat → Bool →
    Except CErr (List (cache_sim_t σ) × List (Nat × Event))
  | _, _, [], _, _, _ => .ok ([], [])
  | 0, _, _ :: _, _, _, _ => .error .fuel
  | fuel + 1, lvl, s :: rest, raw, bytes, store =>
    let a := decompose raw s.sets s.linesz
    match getIdx s.tags a.idx with
    | none => .error .oob
    | some row =>
      match find_way a row with
      | some w =>
        -- cache hit: `if (store) ... set_dirty()`, then `policy->update`
        let tags' :=
          if store then
            match getIdx row w with
            | some e => setIdx s.tags a.idx (setIdx row w { e with dirty := true })
            | none => s.tags
          else s.tags
        .ok ({ s with tags := tags', pol := P.update s.pol a w } :: rest,
          [(lvl, Event.access store bytes)])
      | none =>
        -- cache miss: victimize, write back a dirty victim, fetch, mark dirty on store
        let way := (P.next s.pol a.idx).1
        let pol1 := (P.next s.pol a.idx).2
        match getIdx row way with
        | none => .error .oob
        | some victim =>
          let row' := setIdx row way { a with valid := true }
          let s1 := { s with tags := setIdx s.tags a.idx row', pol := P.insert pol1 a.idx way }
          let wbStep : Except CErr (List (cache_sim_t σ) × List (Nat × Event)) :=
            if victim.valid && victim.dirty then
              match rest with
              | [] => .ok ([], [(lvl, Event.writeback)])
              | _ :: _ =>
                match accessAux P fuel (lvl + 1) rest (victim.to_uint64 s.sets s.linesz)
                    s.linesz true with
                | .error e => .error e
                | .ok (rest1, evs1) => .ok (rest1, evs1 ++ [(lvl, Event.writeback)])
            else .ok (rest, [])
          match wbStep with
          | .error e => .error e
          | .ok (rest1, evsWb) =>
            let fillStep : Except CErr (List (cache_sim_t σ) × List (Nat × Event)) :=
              match rest with
              | [] => .ok (rest1, [])
              | _ :: _ =>
                accessAux P fuel (lvl + 1) rest1 (a.to_uint64 s.sets s.linesz) s.linesz false
            match fillStep with
            | .error e => .error e
            | .ok (rest2, evsFill) =>
              if store then
                match find_way a row' with
                | none => .error .oob
                | some w2 =>
                  let row'' :=
                    match getIdx row' w2 with
                    | some e => setIdx row' w2 { e with dirty := true }
                    | none => row'
                  .ok ({ s1 with tags := setIdx s1.tags a.idx row'' } :: rest2,
                    [(lvl, Event.access store bytes), (lvl, Event.miss store)] ++
                      evsWb ++ evsFill)
              else
                .ok (s1 :: rest2,
                  [(lvl, Event.access store bytes), (lvl, Event.miss store)] ++
                    evsWb ++ evsFill)

/-- Entry point for `access` on a chain of engines. -/
def access {σ : Type} (P : EvictionPolicy σ) (levels : List (cache_sim_t σ))
    (raw bytes : Nat) (store : Bool) :
    Except CErr (List (cache_sim_t σ) × List (Nat × Event)) :=
  accessAux P levels.length 0 levels raw bytes store

/-- Body of one hit iteration of the `clean_invalidate` walk: when `clean`
is set and the entry is dirty, record a write-back and a clean event and
mark it clean; when `inval` is set, re-read the entry and mark it invalid.
Returns the updated row and the events emitted. -/
def clean_one_entry (clean inval : Bool) (row : List cache_sim_addr_t) (w : Nat)
    (e : cache_sim_addr_t) : List cache_sim_addr_t × List Event :=
  let row1 := if clean && e.dirty then setIdx row w { e with dirty := false } else row
  let evs1 : List Event :=
    if clean && e.dirty then [Event.writeback, Event.clean] else []
  let row2 :=
    if inval then
      match getIdx row1 w with
      | some e2 => setIdx row1 w { e2 with valid := false }
      | none => row1
    else row1
  (row2, evs1)

/-- The range walk of `clean_invalidate`: while `cur_addr < end_addr`,
look the line up, write back and clean a dirty hit when `clean` is set,
invalidate a hit when `inval` is set, then `next_cacheline`. -/
def cleanInvLoop {σ : Type} (clean inval : Bool) (fin : cache_sim_addr_t) :
    Nat → cache_sim_t σ → cache_sim_addr_t →
    Except CErr (cache_sim_t σ × List Event)
  | 0, _, _ => .error .fuel
  | fuel + 1, s, cur =>
    if cache_sim_addr_t.ltb cur fin then
      match getIdx s.tags cur.idx with
      | none => .error .oob
      | some row =>
        match find_way cur row with
        | none =>
          -- miss at this line: nothing to do here, advance
          cleanInvLoop clean inval fin fuel s (cur.next_cacheline s.sets)
        | some w =>
          match getIdx row w with
          | none =>
            -- unreachable: a hit index returned by the scan is in range
            cleanInvLoop clean inval fin fuel s (cur.next_cacheline s.sets)
          | some e =>
            let upd := clean_one_entry clean inval row w e
            let s1 : cache_sim_t σ := { s with tags := setIdx s.tags cur.idx upd.1 }
            match cleanInvLoop clean inval fin fuel s1 (cur.next_cacheline s.sets) with
            | .error er => .error er
            | .ok (s2, evs2) => .ok (s2, upd.2 ++ evs2)
    else .ok (s, [])

/-- The member `clean_invalidate(addr, bytes, clean, inval)` on one engine:
walk from the line of `addr` while below the line of `addr + bytes`
(the sum is `uint64_t` arithmetic).  The fuel `s.sets + 2` covers every
terminating walk: the set index only ever grows, so at most `s.sets + 1`
loop iterations can run before the walk ends or leaves the tag array. -/
def clean_invalidate1 {σ : Type} (s : cache_sim_t σ) (addr bytes : Nat)
    (clean inval : Bool) : Except CErr (cache_sim_t σ × List Event) :=
  let cur := decompose addr s.sets s.linesz
  let fin := decompose ((addr + bytes) % U64) s.sets s.linesz
  cleanInvLoop clean inval fin (s.sets + 2) s cur

/-- The member `clean_invalidate` on a chain: process this level, then
forward the identical call to the `miss_handler` chain when present. -/
def cleanInvalidateAux {σ : Type} :
    Nat → List (cache_sim_t σ) → Nat → Nat → Bool → Bool →
    Except CErr (List (cache_sim_t σ) × List (Nat × Event))
  | _, [], _, _, _, _ => .ok ([], [])
  | lvl, s :: rest, addr, bytes, clean, inval =>
    match clean_invalidate1 s addr bytes clean inval with
    | .error e => .error e
    | .ok (s', evs) =>
      match cleanInvalidateAux (lvl + 1) rest addr bytes clean inval with
      | .error e => .error e
      | .ok (rest', evs') => .ok (s' :: rest', evs.map (fun e => (lvl, e)) ++ evs')

/-- Entry point for `clean_invalidate` on a chain of engines. -/
def cleanInvalidate {σ : Type} (levels : List (cache_sim_t σ)) (addr bytes : Nat)
    (clean inval : Bool) :
    Except CErr (List (cache_sim_t σ) × List (Nat × Event)) :=
  cleanInvalidateAux 0 levels addr bytes clean inval

/-- The policy strategies selectable by name. -/
inductive policy_kind where
  | lfsr
  | lru
  | fifo
  | lip
  | bip
deriving DecidableEq

/-- The member `policy_is_valid`: recognizes the five policy tokens. -/
def policy_is_valid (p : String) : Bool :=
  (p == "lfsr") || (p == "lru") || (p == "fifo") || (p == "lip") || (p == "bip")

/-- The member `create_eviction_policy`: selects a strategy by token and
returns `NULL` (here `none`) for an unrecognized token. -/
def create_eviction_policy (p : String) : Option policy_kind :=
  if p == "lfsr" then some .lfsr
  else if p == "lru" then some .lru
  else if p == "fifo" then some .fifo
  else if p == "lip" then some .lip
  else if p == "bip" then some .bip
  else none

/-- Result of a completed `cache_sim_t::init`: the allocated tag array and
the (possibly null) eviction policy the engine ends up owning. -/
structure engine_config where
  sets : Nat
  ways : Nat
  linesz : Nat
  tags : List (List cache_sim_addr_t)
  policy : Option policy_kind
deriving DecidableEq

/-- The member `init(eviction_policy)` reached by the direct constructors:
reject (`help()` exits) when `sets` is zero or not a power of two, or when
`linesz < 8` or not a power of two; only then allocate `sets × ways`
invalid tag entries and select the policy by token.  Neither `ways` nor
the token is validated on this path. -/
def cache_sim_init (sets ways linesz : Nat) (pol : String) : Option engine_config :=
  if sets == 0 || (sets &&& (sets - 1)) != 0 then none
  else if linesz < 8 || (linesz &&& (linesz - 1)) != 0 then none
  else some
    { sets := sets
      ways := ways
      linesz := linesz
      tags := List.replicate sets (List.replicate ways emptyAddr)
      policy := create_eviction_policy pol }

/-- Per-set uniqueness: no two valid entries of a row carry the same tag. -/
def rowInv : List cache_sim_addr_t → Bool
  | [] => true
  | e :: rest =>
    rest.all (fun e2 => !(e.valid && e2.valid && e.tag == e2.tag)) && rowInv rest

/-- The tag-uniqueness invariant of one engine: every set of the tag array
satisfies `rowInv`. -/
def InvS {σ : Type} (s : cache_sim_t σ) : Prop := ∀ row ∈ s.tags, rowInv row = true

/-- A policy instance with trivial bookkeeping that always evicts way 0;
it satisfies the policy contract for any engine with at least one way. -/
def trivialPolicy : EvictionPolicy Unit :=
  { next := fun st _ => (0, st)
    insert := fun st _ _ => st
    update := fun st _ _ => st }

/-- A freshly constructed engine: 2 sets, 1 way, 8-byte lines, all invalid. -/
def coldEngine : cache_sim_t Unit :=
  { sets := 2, ways := 1, linesz := 8, tags := [[emptyAddr], [emptyAddr]], pol := () }

/-- A resident dirty line: tag 0, set 0 (covers byte range 0 to 7). -/
def dirtyLine0 : cache_sim_addr_t := { valid := true, dirty := true, tag := 0, idx := 0 }

/-- The engine of `coldEngine` geometry with the dirty line 0 resident. -/
def dirtyEngine : cache_sim_t Unit :=
  { sets := 2, ways := 1, linesz := 8, tags := [[dirtyLine0], [emptyAddr]], pol := () }

/-- The engine after a clean read of address 0 into `coldEngine`. -/
def filledEngine : cache_sim_t Unit :=
  { sets := 2, ways := 1, linesz := 8,
    tags := [[{ valid := true, dirty := false, tag := 0, idx := 0 }], [emptyAddr]], pol := () }

/-- The engine after `clean_invalidate` has cleaned and invalidated the
dirty line of `dirtyEngine`. -/
def flushedEngine : cache_sim_t Unit :=
  { sets := 2, ways := 1, linesz := 8,
    tags := [[{ valid := false, dirty := false, tag := 0, idx := 0 }], [emptyAddr]], pol := () }

/-- The engine after a store to address 16 evicted the dirty line of
`dirtyEngine`: the new line (tag 1, set 0) is resident and dirty. -/
def storeFilledEngine : cache_sim_t Unit :=
  { sets := 2, ways := 1, linesz := 8,
    tags := [[{ valid := true, dirty := true, tag := 1, idx := 0 }], [emptyAddr]], pol := () }

instance instDecidableInvS {σ : Type} (s : cache_sim_t σ) : Decidable (InvS s) :=
  inferInstanceAs (Decidable (∀ row ∈ s.tags, rowInv row = true))

theorem log2fuel_eq_log2 : ∀ f n, n ≤ f → log2fuel f n = Nat.log2 n := by
  intro f
  induction f with
  | zero =>
    intro n hn
    have h0 : n = 0 := Nat.le_zero.mp hn
    subst h0
    rw [Nat.log2]
    simp [log2fuel]
  | succ f ih =>
    intro n hn
    by_cases h2 : 2 ≤ n
    · have hdiv : n / 2 ≤ f := by
        have : n / 2 < n := Nat.div_lt_self (by omega) (by omega)
        omega
      rw [Nat.log2]
      simp only [log2fuel, if_pos h2, ge_iff_le, h2, if_true, ih _ hdiv]
    · rw [Nat.log2]
      have h2' : ¬ n ≥ 2 := h2
      simp only [log2fuel, if_neg h2, ge_iff_le, if_neg h2']

theorem ilog2_eq_log2 (n : Nat) : ilog2 n = Nat.log2 n :=
  log2fuel_eq_log2 n n (Nat.le_refl n)

theorem ilog2_two_pow (k : Nat) : ilog2 (2 ^ k) = k := by
  rw [ilog2_eq_log2, Nat.log2_eq_log_two]
  exact Nat.log_pow (by omega) k

theorem getIdx_lt_length {α : Type _} : ∀ (l : List α) i x, getIdx l i = some x → i < l.length := by
  intro l
  induction l with
  | nil => intro i x h; simp [getIdx] at h
  | cons a l ih =>
    intro i x h
    cases i with
    | zero => simp
    | succ j =>
      have := ih j x h
      simpa using Nat.succ_lt_succ this

theorem getIdx_mem {α : Type _} : ∀ (l : List α) i x, getIdx l i = some x → x ∈ l := by
  intro l
  induction l with
  | nil => intro i x h; simp [getIdx] at h
  | cons a l ih =>
    intro i x h
    cases i with
    | zero =>
      simp [getIdx] at h
      simp [h]
    | succ j => exact List.mem_cons_of_mem a (ih j x h)

theorem getIdx_of_lt_length {α : Type _} :
    ∀ (l : List α) i, i < l.length → ∃ x, getIdx l i = some x := by
  intro l
  induction l with
  | nil => intro i h; simp at h
  | cons a l ih =>
    intro i h
    cases i with
    | zero => exact ⟨a, rfl⟩
    | succ j => exact ih j (by simpa using Nat.lt_of_succ_lt_succ h)

theorem setIdx_length {α : Type _} : ∀ (l : List α) i y, (setIdx l i y).length = l.length := by
  intro l
  induction l with
  | nil => intro i y; rfl
  | cons a l ih =>
    intro i y
    cases i with
    | zero => rfl
    | succ j => simpa [setIdx] using ih j y

theorem getIdx_setIdx_self {α : Type _} :
    ∀ (l : List α) i y, i < l.length → getIdx (setIdx l i y) i = some y := by
  intro l
  induction l with
  | nil => intro i y h; simp at h
  | cons a l ih =>
    intro i y h
    cases i with
    | zero => rfl
    | succ j => exact ih j y (by simpa using Nat.lt_of_succ_lt_succ h)

theorem getIdx_setIdx_ne {α : Type _} :
    ∀ (l : List α) i j y, i ≠ j → getIdx (setIdx l i y) j = getIdx l j := by
  intro l
  induction l with
  | nil => intro i j y _; rfl
  | cons a l ih =>
    intro i j y hne
    cases i with
    | zero =>
      cases j with
      | zero => exact absurd rfl hne
      | succ j2 => rfl
    | succ i2 =>
      cases j with
      | zero => rfl
      | succ j2 => exact ih i2 j2 y (by omega)

theorem setIdx_setIdx_self {α : Type _} :
    ∀ (l : List α) i y z, setIdx (setIdx l i y) i z = setIdx l i z := by
  intro l
  induction l with
  | nil => intro i y z; rfl
  | cons a l ih =>
    intro i y z
    cases i with
    | zero => rfl
    | succ j => simp [setIdx, ih j y z]

theorem mem_setIdx {α : Type _} :
    ∀ (l : List α) i y x, x ∈ setIdx l i y → x ∈ l ∨ x = y := by
  intro l
  induction l with
  | nil => intro i y x h; simp [setIdx] at h
  | cons a l ih =>
    intro i y x h
    cases i with
    | zero =>
      rcases List.mem_cons.mp h with h1 | h2
      · exact Or.inr h1
      · exact Or.inl (List.mem_cons_of_mem a h2)
    | succ j =>
      rcases List.mem_cons.mp h with h1 | h2
      · exact Or.inl (by simp [h1])
      · rcases ih j y x h2 with h3 | h4
        · exact Or.inl (List.mem_cons_of_mem a h3)
        · exact Or.inr h4

theorem getIdx_replicate {α : Type _} (x : α) :
    ∀ n i, i < n → getIdx (List.replicate n x) i = some x := by
  intro n
  induction n with
  | zero => intro i h; omega
  | succ m ih =>
    intro i h
    cases i with
    | zero => rfl
    | succ j => exact ih j (by omega)

theorem eqb_true_iff (e a : cache_sim_addr_t) :
    cache_sim_addr_t.eqb e a = true ↔
      (e.valid = true ∧ a.valid = true ∧ e.tag = a.tag) := by
  cases he : e.valid <;> cases ha : a.valid <;>
    simp [cache_sim_addr_t.eqb, he, ha]

theorem eqb_false_iff (e a : cache_sim_addr_t) :
    cache_sim_addr_t.eqb e a = false ↔
      ¬ (e.valid = true ∧ a.valid = true ∧ e.tag = a.tag) := by
  rw [← eqb_true_iff]
  cases h : cache_sim_addr_t.eqb e a <;> simp

theorem find_way_none_iff (a : cache_sim_addr_t) :
    ∀ l, find_way a l = none ↔ ∀ e ∈ l, cache_sim_addr_t.eqb e a = false := by
  intro l
  induction l with
  | nil => simp [find_way]
  | cons e rest ih =>
    by_cases he : cache_sim_addr_t.eqb e a
    · simp [find_way, he]
    · have he' : cache_sim_addr_t.eqb e a = false := by
        cases h : cache_sim_addr_t.eqb e a
        · rfl
        · exact absurd h he
      simp only [find_way, if_neg he]
      cases hfr : find_way a rest with
      | some w =>
        simp only [hfr, Option.map]
        constructor
        · intro h; exact absurd h (by simp)
        · intro h
          have : find_way a rest = none :=
            (ih).mpr (fun e2 h2 => h e2 (List.mem_cons_of_mem e h2))
          rw [hfr] at this
          exact absurd this (by simp)
      | none =>
        simp only [hfr, Option.map]
        constructor
        · intro _ e2 hm
          rcases List.mem_cons.mp hm with h1 | h2
          · rw [h1]; exact he'
          · exact (ih.mp hfr) e2 h2
        · intro _; trivial

theorem find_way_some_getIdx (a : cache_sim_addr_t) :
    ∀ l w, find_way a l = some w →
      ∃ e, getIdx l w = some e ∧ cache_sim_addr_t.eqb e a = true := by
  intro l
  induction l with
  | nil => intro w h; simp [find_way] at h
  | cons e rest ih =>
    intro w h
    by_cases he : cache_sim_addr_t.eqb e a
    · simp only [find_way, if_pos he] at h
      cases h
      exact ⟨e, rfl, he⟩
    · simp only [find_way, if_neg he] at h
      cases hfr : find_way a rest with
      | none => rw [hfr] at h; simp [Option.map] at h
      | some w1 =>
        rw [hfr] at h
        simp only [Option.map, Option.some.injEq] at h
        cases h
        exact ih w1 hfr

theorem find_way_setIdx_fresh (a x : cache_sim_addr_t) :
    ∀ l w, find_way a l = none → w < l.length → cache_sim_addr_t.eqb x a = true →
      find_way a (setIdx l w x) = some w := by
  intro l
  induction l with
  | nil => intro w h hw _; simp at hw
  | cons e rest ih =>
    intro w h hw hx
    have hnone := (find_way_none_iff a (e :: rest)).mp h
    have he : cache_sim_addr_t.eqb e a = false := hnone e (by simp)
    have hrest : find_way a rest = none :=
      (find_way_none_iff a rest).mpr (fun e2 h2 => hnone e2 (List.mem_cons_of_mem e h2))
    cases w with
    | zero => simp [setIdx, find_way, hx]
    | succ w1 =>
      have hs : find_way a (setIdx rest w1 x) = some w1 :=
        ih w1 hrest (by simpa using Nat.lt_of_succ_lt_succ hw) hx
      simp [setIdx, find_way, he, hs, Option.map]

theorem distinct_bool_iff (p q : cache_sim_addr_t) :
    (!(p.valid && q.valid && p.tag == q.tag)) = true ↔
      (p.valid = true → q.valid = true → p.tag ≠ q.tag) := by
  cases hp : p.valid <;> cases hq : q.valid <;> simp [hp, hq]

theorem rowInv_cons_iff (e : cache_sim_addr_t) (rest : List cache_sim_addr_t) :
    rowInv (e :: rest) = true ↔
      ((∀ e2 ∈ rest, e.valid = true → e2.valid = true → e.tag ≠ e2.tag) ∧
        rowInv rest = true) := by
  simp only [rowInv, Bool.and_eq_true, List.all_eq_true]
  constructor
  · rintro ⟨h1, h2⟩
    exact ⟨fun e2 h2m => (distinct_bool_iff e e2).mp (h1 e2 h2m), h2⟩
  · rintro ⟨h1, h2⟩
    exact ⟨fun e2 h2m => (distinct_bool_iff e e2).mpr (h1 e2 h2m), h2⟩

theorem rowInv_set_weaken (x : cache_sim_addr_t) :
    ∀ (l : List cache_sim_addr_t) w e, rowInv l = true → getIdx l w = some e →
      (x.valid = true → (x.tag = e.tag ∧ e.valid = true)) →
      rowInv (setIdx l w x) = true := by
  intro l
  induction l with
  | nil => intro w e _ hg _; simp [getIdx] at hg
  | cons e0 rest ih =>
    intro w e hinv hg hx
    obtain ⟨hall, hrest⟩ := (rowInv_cons_iff e0 rest).mp hinv
    cases w with
    | zero =>
      simp only [getIdx] at hg
      cases hg
      simp only [setIdx]
      apply (rowInv_cons_iff x rest).mpr
      refine ⟨fun e2 h2 hxv he2v => ?_, hrest⟩
      obtain ⟨hxt, hev⟩ := hx hxv
      rw [hxt]
      exact hall e2 h2 hev he2v
    | succ w1 =>
      simp only [getIdx] at hg
      simp only [setIdx]
      apply (rowInv_cons_iff e0 (setIdx rest w1 x)).mpr
      refine ⟨fun e2 h2 he0v he2v => ?_, ih w1 e hrest hg hx⟩
      rcases mem_setIdx rest w1 x e2 h2 with hm | hm
      · exact hall e2 hm he0v he2v
      · rw [hm] at he2v ⊢
        obtain ⟨hxt, hev⟩ := hx he2v
        rw [hxt]
        exact hall e (getIdx_mem rest w1 e hg) he0v hev

theorem rowInv_set_fresh (x : cache_sim_addr_t) :
    ∀ (l : List cache_sim_addr_t) w, rowInv l = true →
      (∀ e ∈ l, e.valid = true → e.tag ≠ x.tag) →
      rowInv (setIdx l w x) = true := by
  intro l
  induction l with
  | nil => intro w _ _; simp [setIdx, rowInv]
  | cons e0 rest ih =>
    intro w hinv hfresh
    obtain ⟨hall, hrest⟩ := (rowInv_cons_iff e0 rest).mp hinv
    cases w with
    | zero =>
      simp only [setIdx]
      apply (rowInv_cons_iff x rest).mpr
      refine ⟨fun e2 h2 hxv he2v => ?_, hrest⟩
      intro hc
      exact hfresh e2 (List.mem_cons_of_mem e0 h2) he2v hc.symm
    | succ w1 =>
      simp only [setIdx]
      apply (rowInv_cons_iff e0 (setIdx rest w1 x)).mpr
      constructor
      · intro e2 h2 he0v he2v
        rcases mem_setIdx rest w1 x e2 h2 with hm | hm
        · exact hall e2 hm he0v he2v
        · rw [hm]
          exact hfresh e0 (by simp) he0v
      · exact ih w1 hrest (fun e h hv => hfresh e (List.mem_cons_of_mem e0 h) hv)

theorem find_way_setIdx_invalid (cur x : cache_sim_addr_t) :
    ∀ l w, rowInv l = true → find_way cur l = some w → x.valid = false →
      find_way cur (setIdx l w x) = none := by
  intro l
  induction l with
  | nil => intro w _ h _; simp [find_way] at h
  | cons e rest ih =>
    intro w hinv hf hx
    obtain ⟨hall, hrest⟩ := (rowInv_cons_iff e rest).mp hinv
    by_cases he : cache_sim_addr_t.eqb e cur
    · simp only [find_way, if_pos he] at hf
      cases hf
      have hxne : cache_sim_addr_t.eqb x cur = false := by
        apply (eqb_false_iff x cur).mpr
        rintro ⟨hxv, _, _⟩
        rw [hx] at hxv
        exact absurd hxv (by simp)
      obtain ⟨hev, hcv, het⟩ := (eqb_true_iff e cur).mp he
      have hrnone : find_way cur rest = none := by
        apply (find_way_none_iff cur rest).mpr
        intro e2 h2
        apply (eqb_false_iff e2 cur).mpr
        rintro ⟨he2v, _, he2t⟩
        exact hall e2 h2 hev he2v (by rw [het, ← he2t])
      simp [setIdx, find_way, hxne, hrnone, Option.map]
    · simp only [find_way, if_neg he] at hf
      cases hfr : find_way cur rest with
      | none => rw [hfr] at hf; simp [Option.map] at hf
      | some w1 =>
        rw [hfr] at hf
        simp only [Option.map, Option.some.injEq] at hf
        cases hf
        have hs := ih w1 hrest hfr hx
        simp [setIdx, find_way, he, hs, Option.map]

theorem okPair_eq {γ δ : Type _} {A X : γ} {B Y : δ}
    (h : (Except.ok (A, B) : Except CErr (γ × δ)) = Except.ok (X, Y)) :
    A = X ∧ B = Y := by
  injection h with h'
  exact ⟨congrArg Prod.fst h', congrArg Prod.snd h'⟩

theorem accessAux_level_ge {σ : Type} (P : EvictionPolicy σ) :
    ∀ fuel lvl levels raw bytes store levels' evs,
      accessAux P fuel lvl levels raw bytes store = .ok (levels', evs) →
      ∀ p ∈ evs, lvl ≤ p.1 := by
  intro fuel
  induction fuel with
  | zero =>
    intro lvl levels raw bytes store levels' evs h p hp
    cases levels with
    | nil =>
      simp only [accessAux] at h
      obtain ⟨h1, h2⟩ := okPair_eq h
      subst h2
      simp at hp
    | cons s rest => simp [accessAux] at h
  | succ fuel ih =>
    intro lvl levels raw bytes store levels' evs h p hp
    cases levels with
    | nil =>
      simp only [accessAux] at h
      obtain ⟨h1, h2⟩ := okPair_eq h
      subst h2
      simp at hp
    | cons s rest =>
      simp only [accessAux] at h
      split at h
      · exact absurd h (by simp)
      · rename_i row hrow
        split at h
        · -- hit
          rename_i w hfind
          obtain ⟨h1, h2⟩ := okPair_eq h
          subst h2
          simp only [List.mem_singleton] at hp
          subst hp
          simp
        · -- miss
          rename_i hfind
          split at h
          · exact absurd h (by simp)
          · rename_i victim hvic
            split at h
            · exact absurd h (by simp)
            · rename_i rest1 evsWb hwb
              split at h
              · exact absurd h (by simp)
              · rename_i rest2 evsFill hfill
                have hwbLe : ∀ q ∈ evsWb, lvl ≤ q.1 := by
                  split at hwb
                  · split at hwb
                    · obtain ⟨hh1, hh2⟩ := okPair_eq hwb
                      subst hh2
                      intro q hq
                      simp only [List.mem_singleton] at hq
                      subst hq
                      simp
                    · split at hwb
                      · exact absurd hwb (by simp)
                      · rename_i rest1' evs1' hrec
                        obtain ⟨hh1, hh2⟩ := okPair_eq hwb
                        subst hh2
                        intro q hq
                        rcases List.mem_append.mp hq with hq1 | hq2
                        · have := ih (lvl+1) _ _ _ _ _ _ hrec q hq1
                          omega
                        · simp only [List.mem_singleton] at hq2
                          subst hq2
                          simp
                  · obtain ⟨hh1, hh2⟩ := okPair_eq hwb
                    subst hh2
                    intro q hq
                    simp at hq
                have hfillLe : ∀ q ∈ evsFill, lvl ≤ q.1 := by
                  split at hfill
                  · obtain ⟨hh1, hh2⟩ := okPair_eq hfill
                    subst hh2
                    intro q hq
                    simp at hq
                  · intro q hq
                    have := ih (lvl+1) _ _ _ _ _ _ hfill q hq
                    omega
                split at h
                · split at h
                  · exact absurd h (by simp)
                  · rename_i w2 hfind2
                    obtain ⟨h1, h2⟩ := okPair_eq h
                    subst h2
                    simp only [List.append_assoc, List.cons_append, List.nil_append,
                      List.mem_cons, List.mem_append] at hp
                    rcases hp with rfl | hp2
                    · simp
                    · rcases hp2 with rfl | hp3
                      · simp
                      · rcases hp3 with hp4 | hp5
                        · exact hwbLe p hp4
                        · exact hfillLe p hp5
                · obtain ⟨h1, h2⟩ := okPair_eq h
                  subst h2
                  simp only [List.append_assoc, List.cons_append, List.nil_append,
                    List.mem_cons, List.mem_append] at hp
                  rcases hp with rfl | hp2
                  · simp
                  · rcases hp2 with rfl | hp3
                    · simp
                    · rcases hp3 with hp4 | hp5
                      · exact hwbLe p hp4
                      · exact hfillLe p hp5

theorem decompose_valid (addr sets linesz : Nat) : (decompose addr sets linesz).valid = true := rfl

theorem fresh_of_find_none (a : cache_sim_addr_t) (row : List cache_sim_addr_t)
    (ha : a.valid = true) (h : find_way a row = none) :
    ∀ e ∈ row, e.valid = true → e.tag ≠ a.tag := by
  intro e he hev het
  have := (find_way_none_iff a row).mp h e he
  exact ((eqb_false_iff e a).mp this) ⟨hev, ha, het⟩

theorem accessAux_InvS {σ : Type} (P : EvictionPolicy σ) :
    ∀ fuel lvl levels raw bytes store levels' evs,
      accessAux P fuel lvl levels raw bytes store = .ok (levels', evs) →
      (∀ s ∈ levels, InvS s) → ∀ t ∈ levels', InvS t := by
  intro fuel
  induction fuel with
  | zero =>
    intro lvl levels raw bytes store levels' evs h hinv t ht
    cases levels with
    | nil =>
      simp only [accessAux] at h
      obtain ⟨h1, h2⟩ := okPair_eq h
      subst h1
      simp at ht
    | cons s rest => simp [accessAux] at h
  | succ fuel ih =>
    intro lvl levels raw bytes store levels' evs h hinv t ht
    cases levels with
    | nil =>
      simp only [accessAux] at h
      obtain ⟨h1, h2⟩ := okPair_eq h
      subst h1
      simp at ht
    | cons s rest =>
      have hinvs : InvS s := hinv s (by simp)
      have hinvrest : ∀ u ∈ rest, InvS u := fun u hu => hinv u (List.mem_cons_of_mem s hu)
      simp only [accessAux] at h
      split at h
      · exact absurd h (by simp)
      · rename_i row hrow
        have hrowInv : rowInv row = true := hinvs row (getIdx_mem _ _ _ hrow)
        split at h
        · -- hit
          rename_i w hfind
          obtain ⟨h1, h2⟩ := okPair_eq h
          subst h1
          rcases List.mem_cons.mp ht with rfl | htr
          · -- the updated head
            intro r hr
            dsimp only at hr
            split at hr
            · split at hr
              · rename_i e hge
                rcases mem_setIdx _ _ _ _ hr with hr1 | hr2
                · exact hinvs r hr1
                · rw [hr2]
                  exact rowInv_set_weaken _ row w e hrowInv hge (fun hv => ⟨rfl, hv⟩)
              · exact hinvs r hr
            · exact hinvs r hr
          · exact hinvrest t htr
        · -- miss
          rename_i hfind
          have hfresh : ∀ e ∈ row, e.valid = true →
              e.tag ≠ (decompose raw s.sets s.linesz).tag :=
            fresh_of_find_none _ row (decompose_valid _ _ _) hfind
          have hrow'Inv : rowInv (setIdx row (P.next s.pol (decompose raw s.sets s.linesz).idx).1
              { decompose raw s.sets s.linesz with valid := true }) = true :=
            rowInv_set_fresh _ row _ hrowInv hfresh
          split at h
          · exact absurd h (by simp)
          · rename_i victim hvic
            split at h
            · exact absurd h (by simp)
            · rename_i rest1 evsWb hwb
              have hrest1 : ∀ u ∈ rest1, InvS u := by
                split at hwb
                · split at hwb
                  · obtain ⟨hh1, hh2⟩ := okPair_eq hwb
                    subst hh1
                    intro u hu; simp at hu
                  · split at hwb
                    · exact absurd hwb (by simp)
                    · rename_i rest1' evs1' hrec
                      obtain ⟨hh1, hh2⟩ := okPair_eq hwb
                      subst hh1
                      exact ih _ _ _ _ _ _ _ hrec hinvrest
                · obtain ⟨hh1, hh2⟩ := okPair_eq hwb
                  subst hh1
                  exact hinvrest
              split at h
              · exact absurd h (by simp)
              · rename_i rest2 evsFill hfill
                have hrest2 : ∀ u ∈ rest2, InvS u := by
                  split at hfill
                  · obtain ⟨hh1, hh2⟩ := okPair_eq hfill
                    subst hh1
                    exact hrest1
                  · exact ih _ _ _ _ _ _ _ hfill hrest1
                split at h
                · split at h
                  · exact absurd h (by simp)
                  · rename_i w2 hfind2
                    obtain ⟨h1, h2⟩ := okPair_eq h
                    subst h1
                    rcases List.mem_cons.mp ht with rfl | htr
                    · intro r hr
                      rcases mem_setIdx _ _ _ _ hr with hr1 | hr2
                      · rcases mem_setIdx _ _ _ _ hr1 with hr3 | hr4
                        · exact hinvs r hr3
                        · subst hr4; exact hrow'Inv
                      · subst hr2
                        split
                        · rename_i e hge
                          exact rowInv_set_weaken _ _ w2 e hrow'Inv hge (fun hv => ⟨rfl, hv⟩)
                        · exact hrow'Inv
                    · exact hrest2 t htr
                · obtain ⟨h1, h2⟩ := okPair_eq h
                  subst h1
                  rcases List.mem_cons.mp ht with rfl | htr
                  · intro r hr
                    rcases mem_setIdx _ _ _ _ hr with hr1 | hr2
                    · exact hinvs r hr1
                    · subst hr2; exact hrow'Inv
                  · exact hrest2 t htr

theorem next_cacheline_idx (a : cache_sim_addr_t) (sets : Nat) :
    (a.next_cacheline sets).idx = (a.idx + 1) % U32 := by
  unfold cache_sim_addr_t.next_cacheline
  split <;> rfl

theorem clean_one_entry_fst_invalid (row : List cache_sim_addr_t) (w : Nat)
    (e : cache_sim_addr_t) (hge : getIdx row w = some e) :
    ∃ X, (clean_one_entry true true row w e).1 = setIdx row w X ∧ X.valid = false := by
  have hw : w < row.length := getIdx_lt_length _ _ _ hge
  cases hd : e.dirty with
  | true =>
    have hg1 : getIdx (setIdx row w { e with dirty := false }) w =
        some { e with dirty := false } := getIdx_setIdx_self _ _ _ hw
    refine ⟨⟨false, false, e.tag, e.idx⟩, ?_, rfl⟩
    simp only [clean_one_entry, hd, Bool.and_true, if_true, hg1, setIdx_setIdx_self]
  | false =>
    refine ⟨⟨false, e.dirty, e.tag, e.idx⟩, ?_, rfl⟩
    simp [clean_one_entry, hd, hge]

theorem clean_one_entry_rowInv (clean inval : Bool) (row : List cache_sim_addr_t)
    (w : Nat) (e : cache_sim_addr_t) (hinv : rowInv row = true)
    (hge : getIdx row w = some e) :
    rowInv (clean_one_entry clean inval row w e).1 = true := by
  simp only [clean_one_entry]
  have hrow1 : rowInv (if (clean && e.dirty) = true then
      setIdx row w { e with dirty := false } else row) = true := by
    split
    · exact rowInv_set_weaken _ row w e hinv hge (fun hv => ⟨rfl, hv⟩)
    · exact hinv
  split
  · split
    · rename_i e2 hge2
      exact rowInv_set_weaken _ _ w e2 hrow1 hge2 (fun hv => by simp at hv)
    · exact hrow1
  · exact hrow1

theorem cleanInvLoop_shape {σ : Type} (clean inval : Bool) (fin : cache_sim_addr_t) :
    ∀ fuel (s : cache_sim_t σ) cur s' evs,
      s.tags.length < U32 →
      cleanInvLoop clean inval fin fuel s cur = .ok (s', evs) →
      s'.sets = s.sets ∧ s'.ways = s.ways ∧ s'.linesz = s.linesz ∧ s'.pol = s.pol ∧
        s'.tags.length = s.tags.length ∧
        ∀ j, j < cur.idx → getIdx s'.tags j = getIdx s.tags j := by
  intro fuel
  induction fuel with
  | zero => intro s cur s' evs _ h; simp [cleanInvLoop] at h
  | succ fuel ih =>
    intro s cur s' evs htl h
    simp only [cleanInvLoop] at h
    split at h
    · split at h
      · exact absurd h (by simp)
      · rename_i row hrow
        have hidx : cur.idx < s.tags.length := getIdx_lt_length _ _ _ hrow
        have hnidx : (cur.next_cacheline s.sets).idx = cur.idx + 1 := by
          rw [next_cacheline_idx]
          exact Nat.mod_eq_of_lt (by unfold U32 at htl ⊢; omega)
        split at h
        · obtain ⟨a1, a2, a3, a4, a5, a6⟩ := ih s _ s' evs htl h
          exact ⟨a1, a2, a3, a4, a5, fun j hj => a6 j (by omega)⟩
        · rename_i w hfind
          split at h
          · obtain ⟨a1, a2, a3, a4, a5, a6⟩ := ih s _ s' evs htl h
            exact ⟨a1, a2, a3, a4, a5, fun j hj => a6 j (by omega)⟩
          · rename_i e hge
            split at h
            · exact absurd h (by simp)
            · rename_i s2 evs2 hrec
              obtain ⟨h1, h2⟩ := okPair_eq h
              subst h1
              have htl1 : (setIdx s.tags cur.idx
                  (clean_one_entry clean inval row w e).1).length < U32 := by
                rw [setIdx_length]; exact htl
              obtain ⟨a1, a2, a3, a4, a5, a6⟩ := ih _ _ _ _ htl1 hrec
              refine ⟨a1, a2, a3, a4, by rw [a5, setIdx_length], fun j hj => ?_⟩
              rw [a6 j (by omega)]
              exact getIdx_setIdx_ne _ _ _ _ (by omega)
    · obtain ⟨h1, h2⟩ := okPair_eq h
      subst h1
      exact ⟨rfl, rfl, rfl, rfl, rfl, fun j _ => rfl⟩

theorem cleanInvLoop_InvS {σ : Type} (clean inval : Bool) (fin : cache_sim_addr_t) :
    ∀ fuel (s : cache_sim_t σ) cur s' evs,
      cleanInvLoop clean inval fin fuel s cur = .ok (s', evs) → InvS s → InvS s' := by
  intro fuel
  induction fuel with
  | zero => intro s cur s' evs h _; simp [cleanInvLoop] at h
  | succ fuel ih =>
    intro s cur s' evs h hinv
    simp only [cleanInvLoop] at h
    split at h
    · split at h
      · exact absurd h (by simp)
      · rename_i row hrow
        have hrowInv : rowInv row = true := hinv row (getIdx_mem _ _ _ hrow)
        split at h
        · exact ih s _ s' evs h hinv
        · rename_i w hfind
          split at h
          · exact ih s _ s' evs h hinv
          · rename_i e hge
            split at h
            · exact absurd h (by simp)
            · rename_i s2 evs2 hrec
              obtain ⟨h1, h2⟩ := okPair_eq h
              subst h1
              refine ih _ _ _ _ hrec ?_
              intro r hr
              rcases mem_setIdx _ _ _ _ hr with hr1 | hr2
              · exact hinv r hr1
              · rw [hr2]
                exact clean_one_entry_rowInv clean inval row w e hrowInv hge
    · obtain ⟨h1, h2⟩ := okPair_eq h
      subst h1
      exact hinv

theorem cleanInvLoop_idem {σ : Type} (fin : cache_sim_addr_t) :
    ∀ fuel (s : cache_sim_t σ) cur s' evs,
      s.tags.length < U32 → InvS s →
      cleanInvLoop true true fin fuel s cur = .ok (s', evs) →
      cleanInvLoop true true fin fuel s' cur = .ok (s', []) := by
  intro fuel
  induction fuel with
  | zero => intro s cur s' evs _ _ h; simp [cleanInvLoop] at h
  | succ fuel ih =>
    intro s cur s' evs htl hinv h
    simp only [cleanInvLoop] at h ⊢
    split at h
    · rename_i hlt
      rw [if_pos hlt]
      split at h
      · exact absurd h (by simp)
      · rename_i row hrow
        have hidx : cur.idx < s.tags.length := getIdx_lt_length _ _ _ hrow
        have hrowInv : rowInv row = true := hinv row (getIdx_mem _ _ _ hrow)
        split at h
        · rename_i hfind
          obtain ⟨a1, a2, a3, a4, a5, a6⟩ :=
            cleanInvLoop_shape true true fin fuel s _ s' evs htl h
          have hnidx : (cur.next_cacheline s.sets).idx = cur.idx + 1 := by
            rw [next_cacheline_idx]
            exact Nat.mod_eq_of_lt (by unfold U32 at htl ⊢; omega)
          have a1' : s'.sets = s.sets := a1
          have hg' : getIdx s'.tags cur.idx = some row := by
            rw [a6 cur.idx (by omega)]
            exact hrow
          simp only [hg', hfind, a1']
          exact ih s _ s' evs htl hinv h
        · rename_i w hfind
          split at h
          · rename_i hgnone
            obtain ⟨e0, hge0, _⟩ := find_way_some_getIdx _ row w hfind
            rw [hge0] at hgnone
            exact absurd hgnone (by simp)
          · rename_i e hge
            split at h
            · exact absurd h (by simp)
            · rename_i s2 evs2 hrec
              obtain ⟨h1, h2⟩ := okPair_eq h
              subst h1
              have hnidx : (cur.next_cacheline s.sets).idx = cur.idx + 1 := by
                rw [next_cacheline_idx]
                exact Nat.mod_eq_of_lt (by unfold U32 at htl ⊢; omega)
              obtain ⟨X, hXeq, hXval⟩ := clean_one_entry_fst_invalid row w e hge
              have hInv1 : InvS { s with tags := setIdx s.tags cur.idx (clean_one_entry true true row w e).1 } := by
                intro r hr
                rcases mem_setIdx _ _ _ _ hr with hr1 | hr2
                · exact hinv r hr1
                · rw [hr2]
                  exact clean_one_entry_rowInv true true row w e hrowInv hge
              have htl1 : ({ s with tags := setIdx s.tags cur.idx (clean_one_entry true true row w e).1 } : cache_sim_t σ).tags.length < U32 := by
                have : (setIdx s.tags cur.idx (clean_one_entry true true row w e).1).length = s.tags.length := setIdx_length _ _ _
                simpa [this] using htl
              obtain ⟨a1, a2, a3, a4, a5, a6⟩ :=
                cleanInvLoop_shape true true fin fuel _ _ _ _ htl1 hrec
              have a1' : s2.sets = s.sets := a1
              have hg' : getIdx s2.tags cur.idx = some (setIdx row w X) := by
                have hb : getIdx s2.tags cur.idx = some ((clean_one_entry true true row w e).1) := by
                  rw [a6 cur.idx (by omega)]
                  exact getIdx_setIdx_self _ _ _ hidx
                rw [hXeq] at hb
                exact hb
              have hfind2 : find_way cur (setIdx row w X) = none :=
                find_way_setIdx_invalid cur X row w hrowInv hfind hXval
              simp only [hg', hfind2, a1']
              exact ih _ _ _ _ htl1 hInv1 hrec
    · rename_i hlt
      obtain ⟨h1, h2⟩ := okPair_eq h
      subst h1
      rw [if_neg hlt]

theorem clean_invalidate1_InvS {σ : Type} (s s' : cache_sim_t σ) (addr bytes : Nat)
    (clean inval : Bool) (evs : List Event)
    (h : clean_invalidate1 s addr bytes clean inval = .ok (s', evs)) (hinv : InvS s) :
    InvS s' := by
  simp only [clean_invalidate1] at h
  exact cleanInvLoop_InvS clean inval _ _ s _ s' evs h hinv

theorem clean_invalidate1_idem {σ : Type} (s s' : cache_sim_t σ) (addr bytes : Nat)
    (evs : List Event) (htl : s.tags.length < U32) (hinv : InvS s)
    (h : clean_invalidate1 s addr bytes true true = .ok (s', evs)) :
    clean_invalidate1 s' addr bytes true true = .ok (s', []) := by
  simp only [clean_invalidate1] at h ⊢
  obtain ⟨a1, a2, a3, a4, a5, a6⟩ := cleanInvLoop_shape true true _ _ s _ s' evs htl h
  have a1' : s'.sets = s.sets := a1
  have a3' : s'.linesz = s.linesz := a3
  rw [a1', a3']
  exact cleanInvLoop_idem _ _ s _ s' evs htl hinv h

theorem clean_invalidate1_len {σ : Type} (s s' : cache_sim_t σ) (addr bytes : Nat)
    (clean inval : Bool) (evs : List Event) (htl : s.tags.length < U32)
    (h : clean_invalidate1 s addr bytes clean inval = .ok (s', evs)) :
    s'.tags.length = s.tags.length := by
  simp only [clean_invalidate1] at h
  exact (cleanInvLoop_shape clean inval _ _ s _ s' evs htl h).2.2.2.2.1

theorem cleanInvalidateAux_InvS {σ : Type} :
    ∀ (levels : List (cache_sim_t σ)) lvl addr bytes clean inval levels' evs,
      cleanInvalidateAux lvl levels addr bytes clean inval = .ok (levels', evs) →
      (∀ s ∈ levels, InvS s) → ∀ t ∈ levels', InvS t := by
  intro levels
  induction levels with
  | nil =>
    intro lvl addr bytes clean inval levels' evs h hinv t ht
    simp only [cleanInvalidateAux] at h
    obtain ⟨h1, h2⟩ := okPair_eq h
    subst h1
    simp at ht
  | cons s rest ih =>
    intro lvl addr bytes clean inval levels' evs h hinv t ht
    simp only [cleanInvalidateAux] at h
    split at h
    · exact absurd h (by simp)
    · rename_i s1 evs1 hs1
      split at h
      · exact absurd h (by simp)
      · rename_i rest1 evsr hrest
        obtain ⟨h1, h2⟩ := okPair_eq h
        subst h1
        rcases List.mem_cons.mp ht with rfl | htr
        · exact clean_invalidate1_InvS s t addr bytes clean inval evs1 hs1 (hinv s (by simp))
        · exact ih (lvl + 1) addr bytes clean inval rest1 evsr hrest
            (fun u hu => hinv u (List.mem_cons_of_mem s hu)) t htr

theorem cleanInvalidateAux_idem {σ : Type} :
    ∀ (levels : List (cache_sim_t σ)) lvl addr bytes levels' evs,
      (∀ s ∈ levels, InvS s ∧ s.tags.length < U32) →
      cleanInvalidateAux lvl levels addr bytes true true = .ok (levels', evs) →
      cleanInvalidateAux lvl levels' addr bytes true true = .ok (levels', []) := by
  intro levels
  induction levels with
  | nil =>
    intro lvl addr bytes levels' evs _ h
    simp only [cleanInvalidateAux] at h
    obtain ⟨h1, h2⟩ := okPair_eq h
    subst h1
    rfl
  | cons s rest ih =>
    intro lvl addr bytes levels' evs hws h
    simp only [cleanInvalidateAux] at h
    split at h
    · exact absurd h (by simp)
    · rename_i s1 evs1 hs1
      split at h
      · exact absurd h (by simp)
      · rename_i rest1 evsr hrest
        obtain ⟨h1, h2⟩ := okPair_eq h
        subst h1
        obtain ⟨hinv, htl⟩ := hws s (by simp)
        have hidem := clean_invalidate1_idem s s1 addr bytes evs1 htl hinv hs1
        have hidemrest := ih (lvl + 1) addr bytes rest1 evsr
          (fun u hu => hws u (List.mem_cons_of_mem s hu)) hrest
        simp only [cleanInvalidateAux, hidem, hidemrest]
        simp

theorem roundtrip_bounded (a m k : Nat) (hk : k ≤ 31)
    (halign : a % 2 ^ k = 0) (hbound : a < 2 ^ (32 + k)) :
    (decompose a (2 ^ m) (2 ^ k)).to_uint64 (2 ^ m) (2 ^ k) = a := by
  have hU32 : U32 = 2 ^ 32 := rfl
  have hU64 : U64 = 2 ^ 64 := rfl
  have ha64 : a % U64 = a := by
    apply Nat.mod_eq_of_lt
    rw [hU64]
    calc a < 2 ^ (32 + k) := hbound
    _ ≤ 2 ^ 63 := Nat.pow_le_pow_right (by omega) (by omega)
    _ < 2 ^ 64 := by norm_num
  have hlt32 : a / 2 ^ k < 2 ^ 32 := by
    rw [Nat.div_lt_iff_lt_mul (Nat.pos_pow_of_pos k (by omega))]
    calc a < 2 ^ (32 + k) := hbound
    _ = 2 ^ 32 * 2 ^ k := by rw [Nat.pow_add]
  have hstr : (a >>> k) % U32 = a / 2 ^ k := by
    rw [Nat.shiftRight_eq_div_pow, hU32]
    exact Nat.mod_eq_of_lt hlt32
  have htag : (a / 2 ^ k) >>> m = a / 2 ^ k / 2 ^ m := Nat.shiftRight_eq_div_pow _ _
  have hx : ((a / 2 ^ k / 2 ^ m) <<< m) % U32 = 2 ^ m * (a / 2 ^ k / 2 ^ m) := by
    rw [Nat.shiftLeft_eq, hU32, Nat.mul_comm]
    apply Nat.mod_eq_of_lt
    calc 2 ^ m * (a / 2 ^ k / 2 ^ m) ≤ a / 2 ^ k := by
          rw [Nat.mul_comm]
          exact Nat.div_mul_le_self _ _
    _ < 2 ^ 32 := hlt32
  have hidx : (a / 2 ^ k) &&& (2 ^ m - 1) = (a / 2 ^ k) % 2 ^ m :=
    Nat.and_pow_two_sub_one_eq_mod _ _
  have hor : 2 ^ m * (a / 2 ^ k / 2 ^ m) ||| (a / 2 ^ k) % 2 ^ m = a / 2 ^ k := by
    rw [← Nat.mul_add_lt_is_or (Nat.mod_lt _ (Nat.pos_pow_of_pos m (by omega))) _]
    exact Nat.div_add_mod _ _
  have hfin : ((a / 2 ^ k) <<< k) % U64 = a := by
    rw [Nat.shiftLeft_eq, Nat.div_mul_cancel (Nat.dvd_of_mod_eq_zero halign)]
    exact ha64
  simp only [decompose, cache_sim_addr_t.to_uint64, ilog2_two_pow]
  rw [ha64, hstr, htag, hx, hidx, hor, hfin]

theorem pow2_and_pred (k : Nat) : 2 ^ k &&& (2 ^ k - 1) = 0 := by
  apply Nat.eq_of_testBit_eq
  intro i
  rw [Nat.testBit_and, Nat.testBit_two_pow, Nat.testBit_two_pow_sub_one, Nat.zero_testBit]
  by_cases h : k = i
  · subst h; simp
  · simp [h]

theorem pow2_of_and_pred : ∀ n, n ≠ 0 → n &&& (n - 1) = 0 → ∃ k, n = 2 ^ k := by
  intro n
  induction n using Nat.strong_induction_on with
  | _ n ih =>
    intro hn h
    rcases Nat.lt_or_ge n 2 with h2 | h2
    · exact ⟨0, by omega⟩
    · have hdiv : (n / 2) &&& ((n - 1) / 2) = 0 := by
        rw [← Nat.and_div_two, h]
      rcases Nat.even_or_odd n with ⟨q, hq⟩ | ⟨q, hq⟩
      · have e1 : n / 2 = q := by omega
        have e2 : (n - 1) / 2 = q - 1 := by omega
        rw [e1, e2] at hdiv
        obtain ⟨k, hk⟩ := ih q (by omega) (by omega) hdiv
        exact ⟨k + 1, by rw [Nat.pow_succ]; omega⟩
      · have e1 : n / 2 = q := by omega
        have e2 : (n - 1) / 2 = q := by omega
        rw [e1, e2, Nat.and_self] at hdiv
        omega

theorem init_isSome_iff (sets ways linesz : Nat) (pol : String) :
    (cache_sim_init sets ways linesz pol).isSome = true ↔
      ((∃ m, sets = 2 ^ m) ∧ (∃ k, linesz = 2 ^ k) ∧ 8 ≤ linesz) := by
  unfold cache_sim_init
  constructor
  · intro h
    by_cases c1 : (sets == 0 || (sets &&& (sets - 1)) != 0) = true
    · rw [if_pos c1] at h
      simp at h
    · rw [if_neg c1] at h
      by_cases c2 : (decide (linesz < 8) || (linesz &&& (linesz - 1)) != 0) = true
      · rw [if_pos c2] at h
        simp at h
      · simp only [Bool.or_eq_true, beq_iff_eq, bne_iff_ne, ne_eq, not_or,
          decide_eq_true_eq, not_not, not_lt] at c1 c2
        obtain ⟨hs0, hsp⟩ := c1
        obtain ⟨hl8, hlp⟩ := c2
        refine ⟨pow2_of_and_pred sets hs0 hsp, pow2_of_and_pred linesz ?_ hlp, hl8⟩
        omega
  · rintro ⟨⟨m, rfl⟩, ⟨k, rfl⟩, h8⟩
    have hm0 : 2 ^ m ≠ 0 := (Nat.pos_pow_of_pos m (by omega)).ne'
    have hnl : ¬ (2 ^ k < 8) := Nat.not_lt.mpr h8
    rw [if_neg (by simp [hm0, pow2_and_pred]), if_neg (by simp [hnl, h8, pow2_and_pred])]
    rfl

theorem cold_miss_inserts {σ : Type} (P : EvictionPolicy σ) (s : cache_sim_t σ)
    (raw bytes : Nat) (row : List cache_sim_addr_t)
    (hrow : getIdx s.tags (decompose raw s.sets s.linesz).idx = some row)
    (hcold : ∀ e ∈ row, e.valid = false)
    (hway : (P.next s.pol (decompose raw s.sets s.linesz).idx).1 < row.length) :
    access P [s] raw bytes false =
      .ok ([{ s with
              tags := setIdx s.tags (decompose raw s.sets s.linesz).idx
                (setIdx row (P.next s.pol (decompose raw s.sets s.linesz).idx).1
                  { decompose raw s.sets s.linesz with valid := true }),
              pol := P.insert (P.next s.pol (decompose raw s.sets s.linesz).idx).2
                (decompose raw s.sets s.linesz).idx
                (P.next s.pol (decompose raw s.sets s.linesz).idx).1 }],
        [(0, Event.access false bytes), (0, Event.miss false)]) := by
  obtain ⟨victim, hvic⟩ := getIdx_of_lt_length row _ hway
  have hvicval : victim.valid = false := hcold victim (getIdx_mem _ _ _ hvic)
  have hmiss : find_way (decompose raw s.sets s.linesz) row = none := by
    apply (find_way_none_iff _ row).mpr
    intro e he
    simp [cache_sim_addr_t.eqb, hcold e he]
  simp only [access, List.length_cons, List.length_nil, accessAux, hrow, hmiss, hvic,
    hvicval, Bool.false_and]
  simp

theorem hit_leaves_chain {σ : Type} (P : EvictionPolicy σ) (s1 : cache_sim_t σ)
    (tail : List (cache_sim_t σ)) (raw bytes : Nat) (row1 : List cache_sim_addr_t) (w : Nat)
    (hrow : getIdx s1.tags (decompose raw s1.sets s1.linesz).idx = some row1)
    (hhit : find_way (decompose raw s1.sets s1.linesz) row1 = some w) :
    access P (s1 :: tail) raw bytes false =
      .ok ({ s1 with pol := P.update s1.pol (decompose raw s1.sets s1.linesz) w } :: tail,
        [(0, Event.access false bytes)]) := by
  simp only [access, List.length_cons, accessAux, hrow, hhit]
  simp

theorem miss_dirty_victim_unchained {σ : Type} (P : EvictionPolicy σ) (s : cache_sim_t σ)
    (raw bytes : Nat) (store : Bool) (row : List cache_sim_addr_t) (victim : cache_sim_addr_t)
    (hrow : getIdx s.tags (decompose raw s.sets s.linesz).idx = some row)
    (hmiss : find_way (decompose raw s.sets s.linesz) row = none)
    (hvic : getIdx row (P.next s.pol (decompose raw s.sets s.linesz).idx).1 = some victim)
    (hvv : victim.valid = true) (hvd : victim.dirty = true) :
    access P [s] raw bytes store =
      .ok ([{ s with
              tags := setIdx s.tags (decompose raw s.sets s.linesz).idx
                (setIdx row (P.next s.pol (decompose raw s.sets s.linesz).idx).1
                  { decompose raw s.sets s.linesz with valid := true, dirty := store }),
              pol := P.insert (P.next s.pol (decompose raw s.sets s.linesz).idx).2
                (decompose raw s.sets s.linesz).idx
                (P.next s.pol (decompose raw s.sets s.linesz).idx).1 }],
        [(0, Event.access store bytes), (0, Event.miss store), (0, Event.writeback)]) := by
  have hway : (P.next s.pol (decompose raw s.sets s.linesz).idx).1 < row.length :=
    getIdx_lt_length _ _ _ hvic
  have hfind2 : find_way (decompose raw s.sets s.linesz)
      (setIdx row (P.next s.pol (decompose raw s.sets s.linesz).idx).1
        { decompose raw s.sets s.linesz with valid := true }) =
      some (P.next s.pol (decompose raw s.sets s.linesz).idx).1 :=
    find_way_setIdx_fresh _ _ row _ hmiss hway ((eqb_true_iff _ _).mpr ⟨rfl, rfl, rfl⟩)
  have hget2 : getIdx (setIdx row (P.next s.pol (decompose raw s.sets s.linesz).idx).1
      { decompose raw s.sets s.linesz with valid := true })
      (P.next s.pol (decompose raw s.sets s.linesz).idx).1 =
      some { decompose raw s.sets s.linesz with valid := true } :=
    getIdx_setIdx_self _ _ _ hway
  have hdf : (decompose raw s.sets s.linesz).dirty = false := rfl
  cases store with
  | false =>
    simp only [access, List.length_cons, List.length_nil, accessAux, hrow, hmiss, hvic,
      hvv, hvd, Bool.and_self]
    simp [hdf]
  | true =>
    simp only [access, List.length_cons, List.length_nil, accessAux, hrow, hmiss, hvic,
      hvv, hvd, Bool.and_self, hfind2, hget2, setIdx_setIdx_self]
    simp [hdf]

theorem accessAux_cons_miss_dirty {σ : Type} (P : EvictionPolicy σ) (n lvl : Nat)
    (s r : cache_sim_t σ) (rs : List (cache_sim_t σ))
    (raw bytes : Nat) (store : Bool) (row : List cache_sim_addr_t) (victim : cache_sim_addr_t)
    (hrow : getIdx s.tags (decompose raw s.sets s.linesz).idx = some row)
    (hmiss : find_way (decompose raw s.sets s.linesz) row = none)
    (hvic : getIdx row (P.next s.pol (decompose raw s.sets s.linesz).idx).1 = some victim)
    (hvv : victim.valid = true) (hvd : victim.dirty = true) :
    accessAux P (n + 1) lvl (s :: r :: rs) raw bytes store =
      (match accessAux P n (lvl + 1) (r :: rs) (victim.to_uint64 s.sets s.linesz)
          s.linesz true with
        | .error e => .error e
        | .ok (rest1, evs1) =>
          match accessAux P n (lvl + 1) rest1
              ((decompose raw s.sets s.linesz).to_uint64 s.sets s.linesz) s.linesz false with
          | .error e => .error e
          | .ok (rest2, evs2) =>
            .ok ({ s with
                    tags := setIdx s.tags (decompose raw s.sets s.linesz).idx
                      (setIdx row (P.next s.pol (decompose raw s.sets s.linesz).idx).1
                        { decompose raw s.sets s.linesz with valid := true, dirty := store }),
                    pol := P.insert (P.next s.pol (decompose raw s.sets s.linesz).idx).2
                      (decompose raw s.sets s.linesz).idx
                      (P.next s.pol (decompose raw s.sets s.linesz).idx).1 } :: rest2,
              [(lvl, Event.access store bytes), (lvl, Event.miss store)] ++
                evs1 ++ [(lvl, Event.writeback)] ++ evs2)) := by
  have hway : (P.next s.pol (decompose raw s.sets s.linesz).idx).1 < row.length :=
    getIdx_lt_length _ _ _ hvic
  have hfind2 : find_way (decompose raw s.sets s.linesz)
      (setIdx row (P.next s.pol (decompose raw s.sets s.linesz).idx).1
        { decompose raw s.sets s.linesz with valid := true }) =
      some (P.next s.pol (decompose raw s.sets s.linesz).idx).1 :=
    find_way_setIdx_fresh _ _ row _ hmiss hway ((eqb_true_iff _ _).mpr ⟨rfl, rfl, rfl⟩)
  have hget2 : getIdx (setIdx row (P.next s.pol (decompose raw s.sets s.linesz).idx).1
      { decompose raw s.sets s.linesz with valid := true })
      (P.next s.pol (decompose raw s.sets s.linesz).idx).1 =
      some { decompose raw s.sets s.linesz with valid := true } :=
    getIdx_setIdx_self _ _ _ hway
  have hdf : (decompose raw s.sets s.linesz).dirty = false := rfl
  cases store with
  | false =>
    simp only [accessAux, hrow, hmiss, hvic, hvv, hvd, Bool.and_self]
    simp only [hdf]
    cases hwb : accessAux P n (lvl + 1) (r :: rs) (victim.to_uint64 s.sets s.linesz)
        s.linesz true with
    | error e => simp [hwb]
    | ok res =>
      obtain ⟨rest1, evs1⟩ := res
      simp only [hwb]
      cases hfl : accessAux P n (lvl + 1) rest1
          ((decompose raw s.sets s.linesz).to_uint64 s.sets s.linesz) s.linesz false with
      | error e2 => simp [hfl]
      | ok res2 =>
        obtain ⟨rest2, evs2⟩ := res2
        simp [hfl]
  | true =>
    simp only [accessAux, hrow, hmiss, hvic, hvv, hvd, Bool.and_self, hfind2, hget2,
      setIdx_setIdx_self]
    simp only [hdf]
    cases hwb : accessAux P n (lvl + 1) (r :: rs) (victim.to_uint64 s.sets s.linesz)
        s.linesz true with
    | error e => simp [hwb]
    | ok res =>
      obtain ⟨rest1, evs1⟩ := res
      simp only [hwb]
      cases hfl : accessAux P n (lvl + 1) rest1
          ((decompose raw s.sets s.linesz).to_uint64 s.sets s.linesz) s.linesz false with
      | error e2 => simp [hfl]
      | ok res2 =>
        obtain ⟨rest2, evs2⟩ := res2
        simp [hfl, hfind2, hget2, setIdx_setIdx_self]

/-- C1 counterexample: with the valid geometry sets = 2 = 2^1 and
lineSize = 8 = 2^3, the line-aligned 64-bit address 2^35 does not survive
the decompose/to_uint64 round trip: the decomposing constructor narrows
the stripped line number through `uint32_t`, so bit 35 = 32 + log2(8) is
lost and the recomposed address is 0. -/
theorem C1_counterexample :
    (2 : Nat) = 2 ^ 1 ∧ (8 : Nat) = 2 ^ 3 ∧ (2 ^ 35 : Nat) % 8 = 0 ∧ (2 ^ 35 : Nat) < 2 ^ 64 ∧
    (decompose (2 ^ 35) 2 8).to_uint64 2 8 ≠ 2 ^ 35 := by
  refine ⟨rfl, rfl, by decide, by decide, by decide⟩

/-- C1 (amended): for every valid geometry (sets = 2^m, lineSize = 2^k a
`uint32_t` power of two) and every line-aligned address below
2^(32 + log2 lineSize), recomposing the decomposition of the address
yields it back.  Addresses at or above that bound are truncated by the
`uint32_t stripped` narrowing and do not round-trip. -/
theorem C1_roundtrip_amended (a m k : Nat) (_hk8 : 8 ≤ 2 ^ k) (hk31 : k ≤ 31)
    (halign : a % 2 ^ k = 0) (hbound : a < 2 ^ (32 + k)) :
    (decompose a (2 ^ m) (2 ^ k)).to_uint64 (2 ^ m) (2 ^ k) = a :=
  roundtrip_bounded a m k hk31 halign hbound

/-- C1 witness: the amended round trip evaluated at the line-aligned
address 2^34 with sets = 2, lineSize = 8. -/
theorem C1_witness :
    (decompose (2 ^ 34) (2 ^ 1) (2 ^ 3)).to_uint64 (2 ^ 1) (2 ^ 3) = 2 ^ 34 :=
  C1_roundtrip_amended (2 ^ 34) 1 3 (by decide) (by decide) (by decide) (by decide)

/-- C2 (code bug): on the valid geometry 2 sets x 1 way x 8-byte lines,
`clean_invalidate(0, 48, true, true)` walks past the last set index:
`next_cacheline` never wraps `idx` to 0, so after processing set 1 the
walk reads `tags[2]`, one past the end of the tag array, and the embedded
model reports the out-of-bounds access the claim says cannot happen. -/
theorem C2_oob_failing_input :
    cleanInvalidate [coldEngine] 0 48 true true = .error .oob := rfl

/-- C3 (code bug): the byte range [0, 4) overlaps cache line 0, which is
resident and dirty, yet `clean_invalidate(0, 4, true, true)` processes no
line at all: the walk runs strictly below the line of `addr + bytes` and
never rounds the end up, so the partial last line is skipped — the line
stays valid and dirty and no write-back or clean event is emitted. -/
theorem C3_skipped_line_failing_input :
    dirtyLine0.valid = true ∧ dirtyLine0.dirty = true ∧
    cleanInvalidate [dirtyEngine] 0 4 true true = .ok ([dirtyEngine], []) :=
  ⟨rfl, rfl, rfl⟩

/-- C4 (code bug): for a decomposed address with setIndex = sets - 1
(here decompose(8, 2, 8) with setIndex 1), `next_cacheline` increments the
tag but leaves setIndex = 2 = sets instead of wrapping it to 0; the
resulting setIndex is outside [0, sets). -/
theorem C4_next_cacheline_failing_input :
    (decompose 8 2 8).idx = 2 - 1 ∧
    ((decompose 8 2 8).next_cacheline 2).tag = (decompose 8 2 8).tag + 1 ∧
    ((decompose 8 2 8).next_cacheline 2).idx = 2 ∧
    ¬ ((decompose 8 2 8).next_cacheline 2).idx < 2 := by
  refine ⟨rfl, rfl, rfl, by decide⟩

/-- C5 counterexample: the direct-constructor path accepts ways = 0 and
the unrecognized policy token "plru": `init` allocates the tag storage and
stores a null policy instead of rejecting the configuration. -/
theorem C5_counterexample :
    cache_sim_init 16 0 64 "plru" =
      some { sets := 16, ways := 0, linesz := 64,
             tags := List.replicate 16 (List.replicate 0 emptyAddr), policy := none } ∧
    policy_is_valid "plru" = false ∧ ¬ (1 : Nat) ≤ 0 :=
  ⟨rfl, rfl, by decide⟩

/-- C5 (amended): `init` — the validation reached by every direct
constructor — succeeds exactly when sets is a power of two and lineSize is
a power of two at least 8; the checks run before the tag storage is
allocated, but neither `ways` nor the eviction-policy token is validated
on this path (an unrecognized token silently yields a null policy). -/
theorem C5_init_validation (sets ways linesz : Nat) (pol : String) :
    (cache_sim_init sets ways linesz pol).isSome = true ↔
      ((∃ m, sets = 2 ^ m) ∧ (∃ k, linesz = 2 ^ k) ∧ 8 ≤ linesz) :=
  init_isSome_iff sets ways linesz pol

/-- C5 witness: a valid geometry is accepted even with ways = 3 and an
arbitrary policy token. -/
theorem C5_witness : (cache_sim_init 4 3 16 "anytoken").isSome = true :=
  (C5_init_validation 4 3 16 "anytoken").mpr ⟨⟨2, rfl⟩, ⟨4, rfl⟩, by decide⟩

/-- C6: on a miss whose victim is valid and dirty, the engine records
exactly one write-back event at its own level whether or not a next level
exists; with a next level, that level receives first
`access(victim recomposed, lineSize, store=true)` and then
`access(new line recomposed, lineSize, store=false)` — the fill is
forwarded as a read even when the original access is a store — and only
afterwards is the freshly inserted line marked dirty when the access is a
store.  The third conjunct shows that every event emitted by a forwarded
call is tagged with a level at least 1, so the single writeback shown at
level 0 is the only one recorded at this level. -/
theorem C6_miss_dirty_victim {σ : Type} (P : EvictionPolicy σ) (s : cache_sim_t σ)
    (raw bytes : Nat) (store : Bool) (row : List cache_sim_addr_t) (victim : cache_sim_addr_t)
    (hrow : getIdx s.tags (decompose raw s.sets s.linesz).idx = some row)
    (hmiss : find_way (decompose raw s.sets s.linesz) row = none)
    (hvic : getIdx row (P.next s.pol (decompose raw s.sets s.linesz).idx).1 = some victim)
    (hvv : victim.valid = true) (hvd : victim.dirty = true) :
    (access P [s] raw bytes store =
      .ok ([{ s with
              tags := setIdx s.tags (decompose raw s.sets s.linesz).idx
                (setIdx row (P.next s.pol (decompose raw s.sets s.linesz).idx).1
                  { decompose raw s.sets s.linesz with valid := true, dirty := store }),
              pol := P.insert (P.next s.pol (decompose raw s.sets s.linesz).idx).2
                (decompose raw s.sets s.linesz).idx
                (P.next s.pol (decompose raw s.sets s.linesz).idx).1 }],
        [(0, Event.access store bytes), (0, Event.miss store), (0, Event.writeback)])) ∧
    (∀ (r : cache_sim_t σ) (rs : List (cache_sim_t σ)),
      access P (s :: r :: rs) raw bytes store =
        (match accessAux P (rs.length + 1) 1 (r :: rs) (victim.to_uint64 s.sets s.linesz)
            s.linesz true with
          | .error e => .error e
          | .ok (rest1, evs1) =>
            match accessAux P (rs.length + 1) 1 rest1
                ((decompose raw s.sets s.linesz).to_uint64 s.sets s.linesz) s.linesz false with
            | .error e => .error e
            | .ok (rest2, evs2) =>
              .ok ({ s with
                      tags := setIdx s.tags (decompose raw s.sets s.linesz).idx
                        (setIdx row (P.next s.pol (decompose raw s.sets s.linesz).idx).1
                          { decompose raw s.sets s.linesz with valid := true, dirty := store }),
                      pol := P.insert (P.next s.pol (decompose raw s.sets s.linesz).idx).2
                        (decompose raw s.sets s.linesz).idx
                        (P.next s.pol (decompose raw s.sets s.linesz).idx).1 } :: rest2,
                [(0, Event.access store bytes), (0, Event.miss store)] ++
                  evs1 ++ [(0, Event.writeback)] ++ evs2))) ∧
    (∀ fuel levels raw2 bytes2 store2 ls evs,
      accessAux P fuel 1 levels raw2 bytes2 store2 = .ok (ls, evs) →
      ∀ p ∈ evs, 1 ≤ p.1) := by
  refine ⟨miss_dirty_victim_unchained P s raw bytes store row victim hrow hmiss hvic hvv hvd,
    fun r rs => ?_, fun fuel levels raw2 bytes2 store2 ls evs h =>
      accessAux_level_ge P fuel 1 levels raw2 bytes2 store2 ls evs h⟩
  have h := accessAux_cons_miss_dirty P (rs.length + 1) 0 s r rs raw bytes store row victim
    hrow hmiss hvic hvv hvd
  simpa [access] using h

/-- C6 witness: a store of 8 bytes at address 16 into an engine whose set
0 holds the dirty line 0; the victim is written back (one event) and the
new line is inserted dirty. -/
theorem C6_witness :
    access trivialPolicy [dirtyEngine] 16 8 true =
      .ok ([storeFilledEngine],
        [(0, Event.access true 8), (0, Event.miss true), (0, Event.writeback)]) :=
  (C6_miss_dirty_victim trivialPolicy dirtyEngine 16 8 true [dirtyLine0] dirtyLine0
    rfl rfl rfl rfl rfl).1

/-- C7: starting from a cold (all-invalid) set, a read access misses and
inserts the line clean; a second read of the same line is then a hit: it
emits a single onAccess event and no second onMiss, leaves any next-level
chain untouched, keeps the entry clean (dirty only on store), and
notifies the policy via update. -/
theorem C7_hit_after_insert {σ : Type} (P : EvictionPolicy σ) (s : cache_sim_t σ)
    (raw bytes : Nat) (row : List cache_sim_addr_t)
    (hrow : getIdx s.tags (decompose raw s.sets s.linesz).idx = some row)
    (hcold : ∀ e ∈ row, e.valid = false)
    (hway : (P.next s.pol (decompose raw s.sets s.linesz).idx).1 < row.length) :
    (access P [s] raw bytes false =
      .ok ([{ s with
              tags := setIdx s.tags (decompose raw s.sets s.linesz).idx
                (setIdx row (P.next s.pol (decompose raw s.sets s.linesz).idx).1
                  { decompose raw s.sets s.linesz with valid := true }),
              pol := P.insert (P.next s.pol (decompose raw s.sets s.linesz).idx).2
                (decompose raw s.sets s.linesz).idx
                (P.next s.pol (decompose raw s.sets s.linesz).idx).1 }],
        [(0, Event.access false bytes), (0, Event.miss false)])) ∧
    (∀ tail : List (cache_sim_t σ),
      access P ({ s with
              tags := setIdx s.tags (decompose raw s.sets s.linesz).idx
                (setIdx row (P.next s.pol (decompose raw s.sets s.linesz).idx).1
                  { decompose raw s.sets s.linesz with valid := true }),
              pol := P.insert (P.next s.pol (decompose raw s.sets s.linesz).idx).2
                (decompose raw s.sets s.linesz).idx
                (P.next s.pol (decompose raw s.sets s.linesz).idx).1 } :: tail)
          raw bytes false =
        .ok ({ s with
                tags := setIdx s.tags (decompose raw s.sets s.linesz).idx
                  (setIdx row (P.next s.pol (decompose raw s.sets s.linesz).idx).1
                    { decompose raw s.sets s.linesz with valid := true }),
                pol := P.update
                  (P.insert (P.next s.pol (decompose raw s.sets s.linesz).idx).2
                    (decompose raw s.sets s.linesz).idx
                    (P.next s.pol (decompose raw s.sets s.linesz).idx).1)
                  (decompose raw s.sets s.linesz)
                  (P.next s.pol (decompose raw s.sets s.linesz).idx).1 } :: tail,
          [(0, Event.access false bytes)])) ∧
    ({ decompose raw s.sets s.linesz with valid := true } : cache_sim_addr_t).dirty = false := by
  have hidx : (decompose raw s.sets s.linesz).idx < s.tags.length := getIdx_lt_length _ _ _ hrow
  have hmiss : find_way (decompose raw s.sets s.linesz) row = none := by
    apply (find_way_none_iff _ row).mpr
    intro e he
    simp [cache_sim_addr_t.eqb, hcold e he]
  have hfind2 : find_way (decompose raw s.sets s.linesz)
      (setIdx row (P.next s.pol (decompose raw s.sets s.linesz).idx).1
        { decompose raw s.sets s.linesz with valid := true }) =
      some (P.next s.pol (decompose raw s.sets s.linesz).idx).1 :=
    find_way_setIdx_fresh _ _ row _ hmiss hway ((eqb_true_iff _ _).mpr ⟨rfl, rfl, rfl⟩)
  have hg1 : getIdx (setIdx s.tags (decompose raw s.sets s.linesz).idx
      (setIdx row (P.next s.pol (decompose raw s.sets s.linesz).idx).1
        { decompose raw s.sets s.linesz with valid := true }))
      (decompose raw s.sets s.linesz).idx =
      some (setIdx row (P.next s.pol (decompose raw s.sets s.linesz).idx).1
        { decompose raw s.sets s.linesz with valid := true }) :=
    getIdx_setIdx_self _ _ _ hidx
  refine ⟨cold_miss_inserts P s raw bytes row hrow hcold hway, fun tail => ?_, rfl⟩
  exact hit_leaves_chain P _ tail raw bytes _ _ hg1 hfind2

/-- C7 witness: a read of address 0 into the cold engine misses and
inserts; reading it again hits with no second miss event and no change. -/
theorem C7_witness :
    (access trivialPolicy [coldEngine] 0 8 false =
      .ok ([filledEngine], [(0, Event.access false 8), (0, Event.miss false)])) ∧
    (access trivialPolicy [filledEngine] 0 8 false =
      .ok ([filledEngine], [(0, Event.access false 8)])) :=
  ⟨(C7_hit_after_insert trivialPolicy coldEngine 0 8 [emptyAddr] rfl (by decide) (by decide)).1,
    (C7_hit_after_insert trivialPolicy coldEngine 0 8 [emptyAddr] rfl (by decide) (by decide)).2.1 []⟩

/-- C8: on tag arrays satisfying the per-set tag-uniqueness invariant
(which holds in every reachable state), `clean_invalidate(a, n, true, true)`
is idempotent: if the first call completes, calling it again returns the
same engine states at every level of the chain and emits no write-back or
clean event at all — every line the walk touched is already invalid. -/
theorem C8_clean_invalidate_idempotent {σ : Type} (levels levels' : List (cache_sim_t σ))
    (addr bytes : Nat) (evs : List (Nat × Event))
    (hinv : ∀ s ∈ levels, InvS s) (htl : ∀ s ∈ levels, s.tags.length < U32)
    (h : cleanInvalidate levels addr bytes true true = .ok (levels', evs)) :
    cleanInvalidate levels' addr bytes true true = .ok (levels', []) :=
  cleanInvalidateAux_idem levels 0 addr bytes levels' evs
    (fun s hs => ⟨hinv s hs, htl s hs⟩) h

/-- C8 witness: flushing the dirty line of `dirtyEngine` once writes it
back (one writeback and one clean event); the second identical call is a
no-op with no events. -/
theorem C8_witness :
    cleanInvalidate [flushedEngine] 0 8 true true = .ok ([flushedEngine], []) :=
  C8_clean_invalidate_idempotent [dirtyEngine] [flushedEngine] 0 8
    [(0, Event.writeback), (0, Event.clean)] (by decide) (by decide) rfl

/-- C9: the decomposed-address equality `operator==` holds exactly when
both operands are valid and their tags are equal, and the ordering
`operator<` returns false whenever either operand is invalid — two
invalid addresses are never equal to each other or to anything. -/
theorem C9_eq_lt_validity (a b : cache_sim_addr_t) :
    (cache_sim_addr_t.eqb a b = true ↔
      (a.valid = true ∧ b.valid = true ∧ a.tag = b.tag)) ∧
    ((a.valid = false ∨ b.valid = false) → cache_sim_addr_t.ltb a b = false) := by
  refine ⟨eqb_true_iff a b, fun h => ?_⟩
  rcases h with h | h <;> simp [cache_sim_addr_t.ltb, h]

/-- C9 witness: two equal-looking invalid addresses are not `==`-equal,
and `<` on an invalid left operand is false. -/
theorem C9_witness :
    cache_sim_addr_t.eqb ⟨false, true, 3, 1⟩ ⟨false, true, 3, 1⟩ = false ∧
    cache_sim_addr_t.ltb ⟨false, true, 3, 1⟩ ⟨true, false, 7, 0⟩ = false := by
  constructor
  · cases hv : cache_sim_addr_t.eqb ⟨false, true, 3, 1⟩ ⟨false, true, 3, 1⟩ with
    | false => rfl
    | true =>
      obtain ⟨hc, _⟩ := (C9_eq_lt_validity ⟨false, true, 3, 1⟩ ⟨false, true, 3, 1⟩).1.mp hv
      exact absurd hc (by simp)
  · exact (C9_eq_lt_validity ⟨false, true, 3, 1⟩ ⟨true, false, 7, 0⟩).2 (Or.inl rfl)

/-- C10: within each set of the tag array no two valid entries share a
tag; the invariant is preserved at every level of the chain by every
completed `access` and every completed `clean_invalidate`, and on the
post-miss store path the re-lookup finds exactly the just-inserted way
(the linear scan has a unique match). -/
theorem C10_tag_uniqueness_invariant {σ : Type} (P : EvictionPolicy σ) :
    (∀ (levels : List (cache_sim_t σ)) raw bytes store levels' evs,
      access P levels raw bytes store = .ok (levels', evs) →
      (∀ s ∈ levels, InvS s) → ∀ t ∈ levels', InvS t) ∧
    (∀ (levels : List (cache_sim_t σ)) addr bytes clean inval levels' evs,
      cleanInvalidate levels addr bytes clean inval = .ok (levels', evs) →
      (∀ s ∈ levels, InvS s) → ∀ t ∈ levels', InvS t) ∧
    (∀ (row : List cache_sim_addr_t) (a : cache_sim_addr_t) (w : Nat),
      a.valid = true → find_way a row = none → w < row.length →
      find_way a (setIdx row w { a with valid := true }) = some w) := by
  refine ⟨?_, ?_, ?_⟩
  · intro levels raw bytes store levels' evs h hinv
    exact accessAux_InvS P levels.length 0 levels raw bytes store levels' evs h hinv
  · intro levels addr bytes clean inval levels' evs h hinv
    exact cleanInvalidateAux_InvS levels 0 addr bytes clean inval levels' evs h hinv
  · intro row a w ha hn hw
    exact find_way_setIdx_fresh a _ row w hn hw ((eqb_true_iff _ _).mpr ⟨rfl, ha, rfl⟩)

/-- C10 witness: the invariant evaluated on the engine produced by a read
of address 0 into the cold engine. -/
theorem C10_witness : InvS filledEngine :=
  ((C10_tag_uniqueness_invariant trivialPolicy).1 [coldEngine] 0 8 false
    [filledEngine] [(0, Event.access false 8), (0, Event.miss false)] rfl
    (by decide)) filledEngine (by simp)
